import Mathlib

/-!
Verification of the commit scheduler of `green-bois-magnet`
(`src/committer.rs`), which synthesizes a linear chain of backdated git
commits across a historical window.

Modelling choices (shallow embedding):
* A point in time (`chrono::DateTime<Local>`) is an integer number of
  seconds; a calendar date (`.date()`) is the floor day number
  `t / 86400`, and the time of day (`.time()`) is `t % 86400`.  Local
  days are modelled as uniform 86400-second days.
* `git2::Oid` is a natural number: the object database assigns the next
  index of its object list to every written blob, so object identity is
  injective, exactly what the claims need from a content hash.
* `f64` arithmetic in the source (the intra-day offset
  `((work_seconds as f64 / num as f64) * (i as f64)) as i64` and
  `(365.0 * yrs_ago).round()`) is idealized as exact rational
  arithmetic; `as i64` truncation coincides with `Int.floor` on the
  non-negative values a valid window produces, and `f64::round`
  (half away from zero) coincides with `round` on positive values.
* Randomness and the date-exclusion policy are injected as oracles in
  an `Engine` record (`numCommits`, `skip`, `failAt`), following the
  spec's own injection guidance; `commit_all` consumes one `numCommits`
  draw per day iteration and `failAt` says whether the n-th object
  write fails.
-/

namespace GreenBois

/-- Seconds in one (uniform, local) calendar day. -/
def secondsPerDay : ℤ := 86400

/-- `DateTime::date()`: the calendar day number of a timestamp (floor). -/
def dateOf (t : ℤ) : ℤ := t / secondsPerDay

/-- `DateTime::time()`: seconds since midnight of the timestamp's day. -/
def timeOfDay (t : ℤ) : ℤ := t % secondsPerDay

/-- Modelled from the spec: the serialized commit payload
(`CommitRequest`) produced by `writer::generate_initial_blob` /
`writer::generate_non_initial_blob` (the `writer` module is not under
`src/`): a fixed tree id, author, message, an optional parent object
identifier (absent only for the very first commit), and a timestamp. -/
structure Blob where
  tree : String
  author : String
  message : String
  parent : Option ℕ
  time : ℤ
deriving Repr, DecidableEq

/-- Modelled from the spec: `writer::generate_initial_blob` builds the
payload of the parentless initial commit. -/
def generate_initial_blob (tree author message : String) (t : ℤ) : Blob :=
  { tree := tree, author := author, message := message, parent := none, time := t }

/-- Modelled from the spec: `writer::generate_non_initial_blob` builds a
payload referencing `parent`. -/
def generate_non_initial_blob (tree : String) (parent : ℕ)
    (author message : String) (t : ℤ) : Blob :=
  { tree := tree, author := author, message := message, parent := some parent, time := t }

/-- Errors of `commit_all` (`GitTerminalError`). -/
inductive Err where
  | CommitObjectError
  | ResetHeadError
deriving Repr, DecidableEq

/-- The mutable repository: the object database (list of written commit
objects, in write order; the object id of an entry is its index) and
the branch head. -/
structure RepoState where
  objects : List Blob
  head : ℕ
deriving Repr, DecidableEq

/-- The external oracles of a run: the date-exclusion policy
`dates::should_skip_date` (modelled from the spec: a pure, deterministic,
total predicate on calendar dates; the `dates` module is not under
`src/`), the per-day random commit-count draw, and whether the n-th
object-database write fails. -/
structure Engine where
  skip : ℤ → Bool
  numCommits : ℕ → ℕ
  failAt : ℕ → Bool

/-- The scheduler configuration (`struct Committer`, minus the repository
handle, which lives in `RepoState`). -/
structure Committer where
  tree : String
  author : String
  message : String
  days_to_commit : ℤ
  start_datetime : ℤ
  start_hour : ℤ
  end_hour : ℤ

/-- `(365.0 * options.yrs_ago).round() as i64` (committer.rs line 33). -/
def daysToCommit (yrs_ago : ℚ) : ℤ := round (365 * yrs_ago)

/-- The time computation of `Committer::new` (committer.rs lines 33-36):
`corrected_now = now - (now.time() - options.start)` and
`start_datetime = corrected_now - Duration::days(days_to_commit)`. -/
def Committer.new (tree author message : String) (yrs_ago : ℚ)
    (start end_hour now : ℤ) : Committer :=
  let days_to_commit := daysToCommit yrs_ago
  let corrected_now := now - (timeOfDay now - start)
  { tree := tree, author := author, message := message,
    days_to_commit := days_to_commit,
    start_datetime := corrected_now - days_to_commit * secondsPerDay,
    start_hour := start, end_hour := end_hour }

/-- `Committer::commit_blob` (committer.rs lines 129-138): write a blob
to the object database, returning its object id, or fail with
`CommitObjectError` leaving the database unchanged. -/
def commit_blob (e : Engine) (st : RepoState) (b : Blob) :
    Except Err ℕ × RepoState :=
  if e.failAt st.objects.length then (.error .CommitObjectError, st)
  else (.ok st.objects.length, { st with objects := st.objects ++ [b] })

/-- The intra-day offset of committer.rs line 87:
`((work.num_seconds() as f64 / num as f64) * (i as f64)) as i64`,
idealized over exact rationals. -/
def commitOffset (work : ℤ) (num i : ℕ) : ℤ :=
  ⌊(work : ℚ) / (num : ℚ) * (i : ℚ)⌋

/-- The timestamp of the i-th intra-day commit (committer.rs lines 86-87):
`start_time + Duration::seconds(offset)`. -/
def intraDayTime (start_time work : ℤ) (num i : ℕ) : ℤ :=
  start_time + commitOffset work num i

/-- One iteration of the loop body of `Committer::commit_from_time`
(committer.rs lines 85-100): compute the timestamp, skip it if its date
is excluded, otherwise generate the payload referencing the current
parent and write it. -/
def commitDayStep (c : Committer) (e : Engine) (start_time work : ℤ)
    (num : ℕ) (acc : ℕ × Blob) (st : RepoState) (i : ℕ) :
    Except Err (ℕ × Blob) × RepoState :=
  let commit_time := intraDayTime start_time work num i
  if e.skip (dateOf commit_time) then (.ok acc, st)
  else
    let b := generate_non_initial_blob c.tree acc.1 c.author c.message commit_time
    match commit_blob e st b with
    | (.error er, st') => (.error er, st')
    | (.ok oid, st') => (.ok (oid, b), st')

/-- The `for i in 0..num_of_commits` loop of `commit_from_time`, over an
explicit list of remaining indices. -/
def commitLoop (c : Committer) (e : Engine) (start_time work : ℤ)
    (num : ℕ) : List ℕ → ℕ × Blob → RepoState →
    Except Err (ℕ × Blob) × RepoState
  | [], acc, st => (.ok acc, st)
  | i :: is, acc, st =>
    match commitDayStep c e start_time work num acc st i with
    | (.error er, st') => (.error er, st')
    | (.ok acc', st') => commitLoop c e start_time work num is acc' st'

/-- `Committer::commit_from_time` (committer.rs lines 73-103), with the
day's drawn commit count `num` passed in (randomness injection). -/
def commit_from_time (c : Committer) (e : Engine) (parent : ℕ)
    (blob : Blob) (start_time work : ℤ) (num : ℕ) (st : RepoState) :
    Except Err (ℕ × Blob) × RepoState :=
  commitLoop c e start_time work num (List.range num) (parent, blob) st

/-- The `for _ in 1..self.days_to_commit` loop of `commit_all`
(committer.rs lines 60-65): `n` iterations remain, `commit_time` is the
cursor, `day` the iteration counter indexing the random draws. -/
def commitMain (c : Committer) (e : Engine) (work : ℤ) :
    ℕ → ℤ → ℕ → ℕ × Blob → RepoState → Except Err (ℕ × Blob) × RepoState
  | 0, _, _, acc, st => (.ok acc, st)
  | n + 1, commit_time, day, acc, st =>
    let t := commit_time + secondsPerDay
    match commit_from_time c e acc.1 acc.2 t work (e.numCommits day) st with
    | (.error er, st') => (.error er, st')
    | (.ok acc', st') => commitMain c e work n t (day + 1) acc' st'

/-- `Committer::reset_head_to_hash` (committer.rs lines 115-126):
`find_object` succeeds when the id is in the database; a mixed reset
moves the head. -/
def reset_head_to_hash (st : RepoState) (oid : ℕ) :
    Except Err Unit × RepoState :=
  if oid < st.objects.length then (.ok (), { st with head := oid })
  else (.error .ResetHeadError, st)

/-- `Committer::commit_all` (committer.rs lines 51-71): write the initial
commit at `start_datetime`, loop over the remaining days, then reset the
head to the last commit. -/
def commit_all (c : Committer) (e : Engine) (st : RepoState) :
    Except Err Unit × RepoState :=
  let blob := generate_initial_blob c.tree c.author c.message c.start_datetime
  match commit_blob e st blob with
  | (.error er, st') => (.error er, st')
  | (.ok parent, st1) =>
    let work := c.end_hour - c.start_hour
    match commitMain c e work (c.days_to_commit - 1).toNat c.start_datetime 1
        (parent, blob) st1 with
    | (.error er, st2) => (.error er, st2)
    | (.ok acc, st2) => reset_head_to_hash st2 acc.1

/-- `choices` of `gen_rand_num_commits` (committer.rs line 108). -/
def choices : List ℤ := [0, 1, 2, 3, 4, 5, 6, 7, 8, 9, 10, 11, 12, 13]

/-- `weights` of `gen_rand_num_commits` (committer.rs line 109). -/
def weights : List ℕ := [3, 4, 2, 2, 2, 1, 1, 1, 1, 2, 2, 2, 4, 3]

/-- `WeightedIndex::sample`: with a uniform draw `r` below the total
weight, return the first index whose cumulative weight exceeds `r`. -/
def weightedIndex : List ℕ → ℕ → ℕ
  | [], _ => 0
  | w :: ws, r => if r < w then 0 else weightedIndex ws (r - w) + 1

/-- `Committer::gen_rand_num_commits` (committer.rs lines 105-113), the
uniform source `rand::thread_rng` injected as a natural number reduced
modulo the total weight. -/
def gen_rand_num_commits (r : ℕ) : ℤ :=
  choices.getD (weightedIndex weights (r % weights.sum)) 0

/-- The objects created after position `L` form a linear chain: the
commit at created-index `j + 1` has as parent the object id `L + j` of
the created commit immediately before it. -/
def chainInv (L : ℕ) (objs : List Blob) : Prop :=
  ∀ j b, (objs.drop L).get? (j + 1) = some b → b.parent = some (L + j)

/-- Modelled from the spec (design note on the per-day skip): the
all-or-nothing variant of `commit_from_time` that consults the exclusion
policy once, on the day's start timestamp, instead of once per intra-day
timestamp. -/
def commit_from_time_daySkip (c : Committer) (e : Engine) (parent : ℕ)
    (blob : Blob) (start_time work : ℤ) (num : ℕ) (st : RepoState) :
    Except Err (ℕ × Blob) × RepoState :=
  if e.skip (dateOf start_time) then (.ok (parent, blob), st)
  else commit_from_time c { e with skip := fun _ => false } parent blob
    start_time work num st

/-- A concrete scheduler: two days, window 09:00-17:00, anchored at
09:00 of day 0. -/
def cW : Committer :=
  { tree := "t", author := "a", message := "m", days_to_commit := 2,
    start_datetime := 32400, start_hour := 32400, end_hour := 61200 }

/-- A concrete scheduler with `days_to_commit = 0`. -/
def cW0 : Committer :=
  { tree := "t", author := "a", message := "m", days_to_commit := 0,
    start_datetime := 32400, start_hour := 32400, end_hour := 61200 }

/-- A concrete engine: no date excluded, two commits drawn per day,
no write failure. -/
def eW : Engine :=
  { skip := fun _ => false, numCommits := fun _ => 2, failAt := fun _ => false }

/-- A concrete engine whose object writes all fail after the first. -/
def eF : Engine :=
  { skip := fun _ => false, numCommits := fun _ => 1,
    failAt := fun n => n != 0 }

/-- A concrete engine that marks every date excluded. -/
def eS : Engine :=
  { skip := fun _ => true, numCommits := fun _ => 2, failAt := fun _ => false }

/-- A concrete initial repository: empty object database, head `5`. -/
def stW : RepoState := { objects := [], head := 5 }

/-! ### Arithmetic lemmas about time and intra-day offsets -/

lemma secondsPerDay_pos : (0 : ℤ) < secondsPerDay := by norm_num [secondsPerDay]

lemma timeOfDay_nonneg (t : ℤ) : 0 ≤ timeOfDay t :=
  Int.emod_nonneg t (by norm_num [secondsPerDay])

lemma timeOfDay_lt (t : ℤ) : timeOfDay t < secondsPerDay :=
  Int.emod_lt_of_pos t secondsPerDay_pos

lemma dateOf_mul_add_timeOfDay (t : ℤ) :
    dateOf t * secondsPerDay + timeOfDay t = t := by
  have h := Int.ediv_add_emod t secondsPerDay
  unfold dateOf timeOfDay
  linarith [h]

lemma dateOf_closed (D u : ℤ) (h0 : 0 ≤ u) (h1 : u < secondsPerDay) :
    dateOf (D * secondsPerDay + u) = D := by
  unfold dateOf
  rw [add_comm, Int.add_mul_ediv_right _ _ (by norm_num [secondsPerDay] : secondsPerDay ≠ 0)]
  rw [Int.ediv_eq_zero_of_lt h0 h1, zero_add]

lemma timeOfDay_closed (D u : ℤ) (h0 : 0 ≤ u) (h1 : u < secondsPerDay) :
    timeOfDay (D * secondsPerDay + u) = u := by
  unfold timeOfDay
  rw [add_comm, Int.add_mul_emod_self]
  exact Int.emod_eq_of_lt h0 h1

lemma timeOfDay_add (t o : ℤ) (h0 : 0 ≤ o)
    (h : timeOfDay t + o < secondsPerDay) :
    timeOfDay (t + o) = timeOfDay t + o := by
  conv_lhs => rw [← dateOf_mul_add_timeOfDay t]
  rw [add_assoc]
  exact timeOfDay_closed _ _ (by linarith [timeOfDay_nonneg t]) h

lemma dateOf_add (t o : ℤ) (h0 : 0 ≤ o)
    (h : timeOfDay t + o < secondsPerDay) :
    dateOf (t + o) = dateOf t := by
  conv_lhs => rw [← dateOf_mul_add_timeOfDay t]
  rw [add_assoc]
  exact dateOf_closed _ _ (by linarith [timeOfDay_nonneg t]) h

lemma commitOffset_nonneg (work : ℤ) (num i : ℕ) (hw : 0 ≤ work) :
    0 ≤ commitOffset work num i := by
  apply Int.le_floor.mpr
  push_cast
  positivity

lemma commitOffset_le (work : ℤ) (num i : ℕ) (hw : 0 ≤ work)
    (hi : i ≤ num) : commitOffset work num i ≤ work := by
  have : (work : ℚ) / (num : ℚ) * (i : ℚ) ≤ (work : ℚ) := by
    rcases Nat.eq_zero_or_pos num with h | h
    · subst h
      interval_cases i
      simpa using hw
    · have hn : (num : ℚ) ≠ 0 := by positivity
      calc (work : ℚ) / (num : ℚ) * (i : ℚ)
          ≤ (work : ℚ) / (num : ℚ) * (num : ℚ) := by
            apply mul_le_mul_of_nonneg_left (by exact_mod_cast hi)
            apply div_nonneg (by exact_mod_cast hw) (by positivity)
        _ = (work : ℚ) := div_mul_cancel₀ _ hn
  calc commitOffset work num i ≤ ⌊(work : ℚ)⌋ := Int.floor_le_floor this
    _ = work := Int.floor_intCast work

lemma commitOffset_mono (work : ℤ) (num i j : ℕ) (hw : 0 ≤ work)
    (hij : i ≤ j) : commitOffset work num i ≤ commitOffset work num j := by
  apply Int.floor_le_floor
  apply mul_le_mul_of_nonneg_left (by exact_mod_cast hij)
  apply div_nonneg (by exact_mod_cast hw) (by positivity)

lemma commitOffset_zero (work : ℤ) (num : ℕ) :
    commitOffset work num 0 = 0 := by
  simp [commitOffset]

/-! ### Step equations for the loops -/

lemma commitDayStep_cases (c : Committer) (e : Engine) (start_time work : ℤ)
    (num : ℕ) (acc : ℕ × Blob) (st : RepoState) (i : ℕ) :
    (e.skip (dateOf (intraDayTime start_time work num i)) = true ∧
      commitDayStep c e start_time work num acc st i = (.ok acc, st)) ∨
    (e.skip (dateOf (intraDayTime start_time work num i)) = false ∧
      e.failAt st.objects.length = true ∧
      commitDayStep c e start_time work num acc st i =
        (.error .CommitObjectError, st)) ∨
    (e.skip (dateOf (intraDayTime start_time work num i)) = false ∧
      e.failAt st.objects.length = false ∧
      commitDayStep c e start_time work num acc st i =
        (.ok (st.objects.length, generate_non_initial_blob c.tree acc.1
            c.author c.message (intraDayTime start_time work num i)),
          { st with objects := st.objects ++ [generate_non_initial_blob c.tree
              acc.1 c.author c.message (intraDayTime start_time work num i)] })) := by
  by_cases hs : e.skip (dateOf (intraDayTime start_time work num i)) = true
  · left
    exact ⟨hs, by simp [commitDayStep, hs]⟩
  · rw [Bool.not_eq_true] at hs
    by_cases hf : e.failAt st.objects.length = true
    · right; left
      exact ⟨hs, hf, by simp [commitDayStep, commit_blob, hs, hf]⟩
    · rw [Bool.not_eq_true] at hf
      right; right
      exact ⟨hs, hf, by simp [commitDayStep, commit_blob, hs, hf]⟩

lemma commitLoop_cons_ok (c : Committer) (e : Engine) (start_time work : ℤ)
    (num : ℕ) (i : ℕ) (is : List ℕ) (acc acc' : ℕ × Blob)
    (st st' : RepoState)
    (heq : commitDayStep c e start_time work num acc st i = (.ok acc', st')) :
    commitLoop c e start_time work num (i :: is) acc st =
      commitLoop c e start_time work num is acc' st' := by
  simp only [commitLoop, heq]

lemma commitLoop_cons_error (c : Committer) (e : Engine) (start_time work : ℤ)
    (num : ℕ) (i : ℕ) (is : List ℕ) (acc : ℕ × Blob) (st st' : RepoState)
    (er : Err)
    (heq : commitDayStep c e start_time work num acc st i = (.error er, st')) :
    commitLoop c e start_time work num (i :: is) acc st = (.error er, st') := by
  simp only [commitLoop, heq]

lemma commitMain_succ_ok (c : Committer) (e : Engine) (work : ℤ) (n : ℕ)
    (commit_time : ℤ) (day : ℕ) (acc acc' : ℕ × Blob) (st st' : RepoState)
    (heq : commit_from_time c e acc.1 acc.2 (commit_time + secondsPerDay) work
      (e.numCommits day) st = (.ok acc', st')) :
    commitMain c e work (n + 1) commit_time day acc st =
      commitMain c e work n (commit_time + secondsPerDay) (day + 1) acc' st' := by
  simp only [commitMain, heq]

lemma commitMain_succ_error (c : Committer) (e : Engine) (work : ℤ) (n : ℕ)
    (commit_time : ℤ) (day : ℕ) (acc : ℕ × Blob) (st st' : RepoState)
    (er : Err)
    (heq : commit_from_time c e acc.1 acc.2 (commit_time + secondsPerDay) work
      (e.numCommits day) st = (.error er, st')) :
    commitMain c e work (n + 1) commit_time day acc st = (.error er, st') := by
  simp only [commitMain, heq]

/-! ### Structural invariants (no arithmetic hypotheses) -/

lemma commitLoop_structural (c : Committer) (e : Engine) (start_time work : ℤ)
    (num : ℕ) (is : List ℕ) :
    ∀ (acc : ℕ × Blob) (st : RepoState),
    ∃ new : List Blob,
      (commitLoop c e start_time work num is acc st).2.objects =
        st.objects ++ new ∧
      (commitLoop c e start_time work num is acc st).2.head = st.head ∧
      (∀ b ∈ new, e.skip (dateOf b.time) = false) ∧
      (∀ er, (commitLoop c e start_time work num is acc st).1 = .error er →
        er = .CommitObjectError) ∧
      (∀ acc', (commitLoop c e start_time work num is acc st).1 = .ok acc' →
        acc.1 + 1 = st.objects.length →
        acc'.1 + 1 = (commitLoop c e start_time work num is acc st).2.objects.length) := by
  induction is with
  | nil =>
    intro acc st
    refine ⟨[], by simp [commitLoop], rfl, by simp, ?_, ?_⟩
    · intro er h
      simp [commitLoop] at h
    · intro acc' h hacc
      simp only [commitLoop] at h ⊢
      cases h
      simpa using hacc
  | cons i is ih =>
    intro acc st
    rcases commitDayStep_cases c e start_time work num acc st i with
      ⟨hs, heq⟩ | ⟨hs, hf, heq⟩ | ⟨hs, hf, heq⟩
    · rw [commitLoop_cons_ok c e start_time work num i is acc acc st st heq]
      exact ih acc st
    · rw [commitLoop_cons_error c e start_time work num i is acc st st
        .CommitObjectError heq]
      refine ⟨[], by simp, rfl, by simp, ?_, ?_⟩
      · intro er h
        cases h
        rfl
      · intro acc' h
        cases h
    · set b := generate_non_initial_blob c.tree acc.1 c.author c.message
        (intraDayTime start_time work num i) with hb
      set st' : RepoState := { st with objects := st.objects ++ [b] } with hst'
      rw [commitLoop_cons_ok c e start_time work num i is acc
        (st.objects.length, b) st st' heq]
      obtain ⟨new, h1, h2, h3, h4, h5⟩ := ih (st.objects.length, b) st'
      refine ⟨b :: new, ?_, ?_, ?_, h4, ?_⟩
      · rw [h1, hst']
        simp
      · rw [h2]
      · intro x hx
        rcases List.mem_cons.mp hx with hx | hx
        · subst hx
          rw [hb]
          simpa [generate_non_initial_blob] using hs
        · exact h3 x hx
      · intro acc' h hacc
        apply h5 acc' h
        simp [hst']

lemma commitMain_structural (c : Committer) (e : Engine) (work : ℤ) (n : ℕ) :
    ∀ (t0 : ℤ) (day : ℕ) (acc : ℕ × Blob) (st : RepoState),
    ∃ new : List Blob,
      (commitMain c e work n t0 day acc st).2.objects = st.objects ++ new ∧
      (commitMain c e work n t0 day acc st).2.head = st.head ∧
      (∀ b ∈ new, e.skip (dateOf b.time) = false) ∧
      (∀ er, (commitMain c e work n t0 day acc st).1 = .error er →
        er = .CommitObjectError) ∧
      (∀ acc', (commitMain c e work n t0 day acc st).1 = .ok acc' →
        acc.1 + 1 = st.objects.length →
        acc'.1 + 1 = (commitMain c e work n t0 day acc st).2.objects.length) := by
  induction n with
  | zero =>
    intro t0 day acc st
    refine ⟨[], by simp [commitMain], rfl, by simp, ?_, ?_⟩
    · intro er h
      simp [commitMain] at h
    · intro acc' h hacc
      simp only [commitMain] at h ⊢
      cases h
      simpa using hacc
  | succ n ih =>
    intro t0 day acc st
    obtain ⟨new1, g1, g2, g3, g4, g5⟩ := commitLoop_structural c e
      (t0 + secondsPerDay) work (e.numCommits day)
      (List.range (e.numCommits day)) (acc.1, acc.2) st
    rcases hr : commit_from_time c e acc.1 acc.2 (t0 + secondsPerDay) work
      (e.numCommits day) st with ⟨res, st'⟩
    have hr' : commitLoop c e (t0 + secondsPerDay) work (e.numCommits day)
        (List.range (e.numCommits day)) (acc.1, acc.2) st = (res, st') := hr
    rw [hr'] at g1 g2 g4 g5
    cases res with
    | error er =>
      have her : er = .CommitObjectError := g4 er rfl
      rw [commitMain_succ_error c e work n t0 day acc st st' er hr]
      exact ⟨new1, g1, g2, g3, by intro x h; cases h; exact her, by intro x h; cases h⟩
    | ok acc' =>
      rw [commitMain_succ_ok c e work n t0 day acc acc' st st' hr]
      obtain ⟨new2, k1, k2, k3, k4, k5⟩ := ih (t0 + secondsPerDay) (day + 1) acc' st'
      refine ⟨new1 ++ new2, ?_, ?_, ?_, k4, ?_⟩
      · rw [k1, g1, List.append_assoc]
      · rw [k2, g2]
      · intro x hx
        rcases List.mem_append.mp hx with hx | hx
        · exact g3 x hx
        · exact k3 x hx
      · intro acc'' h hacc
        exact k5 acc'' h (g5 acc' rfl (by simpa using hacc))

/-- Every run of `commit_all` only appends to the object database; the
created objects are `new`; on failure the head is untouched, any error
raised while commits are being written is `CommitObjectError`, and on
success the head is reset to the last created object. -/
lemma commit_all_structural (c : Committer) (e : Engine) (st : RepoState) :
    ∃ new : List Blob,
      (commit_all c e st).2.objects = st.objects ++ new ∧
      (∀ er, (commit_all c e st).1 = .error er →
        (commit_all c e st).2.head = st.head ∧ er = .CommitObjectError) ∧
      ((commit_all c e st).1 = .ok () →
        new.length ≠ 0 ∧
        new.head? = some (generate_initial_blob c.tree c.author
          c.message c.start_datetime) ∧
        (commit_all c e st).2.head + 1 = (commit_all c e st).2.objects.length) ∧
      (∀ b ∈ new.drop 1, e.skip (dateOf b.time) = false) := by
  unfold commit_all
  set b0 := generate_initial_blob c.tree c.author c.message c.start_datetime with hb0
  by_cases hf : e.failAt st.objects.length = true
  · refine ⟨[], ?_, ?_, ?_, ?_⟩ <;> simp [commit_blob, hf]
  · rw [Bool.not_eq_true] at hf
    simp only [commit_blob, hf, Bool.false_eq_true, if_false]
    set st1 : RepoState := { st with objects := st.objects ++ [b0] } with hst1
    obtain ⟨new1, g1, g2, g3, g4, g5⟩ := commitMain_structural c e
      (c.end_hour - c.start_hour) (c.days_to_commit - 1).toNat
      c.start_datetime 1 (st.objects.length, b0) st1
    rcases hm : commitMain c e (c.end_hour - c.start_hour)
        (c.days_to_commit - 1).toNat c.start_datetime 1
        (st.objects.length, b0) st1 with ⟨res, st2⟩
    rw [hm] at g1 g2 g4 g5
    cases res with
    | error er =>
      have her : er = .CommitObjectError := g4 er rfl
      refine ⟨b0 :: new1, ?_, ?_, ?_, ?_⟩
      · simpa [hst1] using g1
      · intro er' h
        cases h
        exact ⟨g2, her⟩
      · intro h
        cases h
      · intro x hx
        exact g3 x (by simpa using hx)
    | ok acc =>
      have hacc : acc.1 + 1 = st2.objects.length :=
        g5 acc rfl (by simp [hst1])
      have hlt : acc.1 < st2.objects.length := by omega
      simp only [reset_head_to_hash, hlt, if_true]
      refine ⟨b0 :: new1, ?_, ?_, ?_, ?_⟩
      · simpa [hst1] using g1
      · intro er' h
        cases h
      · intro _
        refine ⟨by simp, by simp, ?_⟩
        simpa using hacc
      · intro x hx
        exact g3 x (by simpa using hx)

/-! ### Parent-chain invariant -/

lemma chainInv_append (L : ℕ) (objs : List Blob) (x : Blob)
    (hL : L < objs.length) (hx : x.parent = some (objs.length - 1))
    (h : chainInv L objs) : chainInv L (objs ++ [x]) := by
  intro j b hb
  rw [List.drop_append_of_le_length (le_of_lt hL)] at hb
  by_cases hj : j + 1 < (objs.drop L).length
  · rw [List.get?_append hj] at hb
    exact h j b hb
  · have hlt : j + 1 < (objs.drop L ++ [x]).length := by
      obtain ⟨hh, _⟩ := List.get?_eq_some.mp hb
      exact hh
    have hlen : (objs.drop L).length = objs.length - L := List.length_drop L objs
    have hj1 : j + 1 = (objs.drop L).length := by
      simp only [List.length_append, List.length_singleton] at hlt
      omega
    rw [hj1, List.get?_concat_length] at hb
    cases hb
    rw [hx]
    congr 1
    omega

lemma commitLoop_chain (L : ℕ) (c : Committer) (e : Engine)
    (start_time work : ℤ) (num : ℕ) (is : List ℕ) :
    ∀ (acc : ℕ × Blob) (st : RepoState),
    acc.1 + 1 = st.objects.length → L < st.objects.length →
    chainInv L st.objects →
    chainInv L (commitLoop c e start_time work num is acc st).2.objects := by
  induction is with
  | nil =>
    intro acc st _ _ h
    exact h
  | cons i is ih =>
    intro acc st hacc hL h
    rcases commitDayStep_cases c e start_time work num acc st i with
      ⟨hs, heq⟩ | ⟨hs, hf, heq⟩ | ⟨hs, hf, heq⟩
    · rw [commitLoop_cons_ok c e start_time work num i is acc acc st st heq]
      exact ih acc st hacc hL h
    · rw [commitLoop_cons_error c e start_time work num i is acc st st
        .CommitObjectError heq]
      exact h
    · set b := generate_non_initial_blob c.tree acc.1 c.author c.message
        (intraDayTime start_time work num i) with hb
      set st' : RepoState := { st with objects := st.objects ++ [b] } with hst'
      rw [commitLoop_cons_ok c e start_time work num i is acc
        (st.objects.length, b) st st' heq]
      apply ih
      · simp [hst']
      · simp only [hst', List.length_append, List.length_singleton]
        omega
      · apply chainInv_append L st.objects b hL _ h
        rw [hb]
        simp only [generate_non_initial_blob]
        congr 1
        omega

lemma commitMain_chain (L : ℕ) (c : Committer) (e : Engine) (work : ℤ)
    (n : ℕ) :
    ∀ (t0 : ℤ) (day : ℕ) (acc : ℕ × Blob) (st : RepoState),
    acc.1 + 1 = st.objects.length → L < st.objects.length →
    chainInv L st.objects →
    chainInv L (commitMain c e work n t0 day acc st).2.objects := by
  induction n with
  | zero =>
    intro t0 day acc st _ _ h
    exact h
  | succ n ih =>
    intro t0 day acc st hacc hL h
    obtain ⟨new1, g1, g2, g3, g4, g5⟩ := commitLoop_structural c e
      (t0 + secondsPerDay) work (e.numCommits day)
      (List.range (e.numCommits day)) (acc.1, acc.2) st
    have hchain : chainInv L (commitLoop c e (t0 + secondsPerDay) work
        (e.numCommits day) (List.range (e.numCommits day))
        (acc.1, acc.2) st).2.objects :=
      commitLoop_chain L c e (t0 + secondsPerDay) work (e.numCommits day)
        (List.range (e.numCommits day)) (acc.1, acc.2) st hacc hL h
    rcases hr : commit_from_time c e acc.1 acc.2 (t0 + secondsPerDay) work
      (e.numCommits day) st with ⟨res, st'⟩
    have hr' : commitLoop c e (t0 + secondsPerDay) work (e.numCommits day)
        (List.range (e.numCommits day)) (acc.1, acc.2) st = (res, st') := hr
    rw [hr'] at g1 g2 g4 g5 hchain
    cases res with
    | error er =>
      rw [commitMain_succ_error c e work n t0 day acc st st' er hr]
      exact hchain
    | ok acc' =>
      rw [commitMain_succ_ok c e work n t0 day acc acc' st st' hr]
      apply ih
      · exact g5 acc' rfl (by simpa using hacc)
      · have : st'.objects = st.objects ++ new1 := g1
        rw [this, List.length_append]
        omega
      · exact hchain

lemma reset_head_objects (st : RepoState) (oid : ℕ) :
    (reset_head_to_hash st oid).2.objects = st.objects := by
  unfold reset_head_to_hash
  split <;> rfl

lemma commit_all_chain (c : Committer) (e : Engine) (st : RepoState) :
    chainInv st.objects.length (commit_all c e st).2.objects := by
  unfold commit_all
  set b0 := generate_initial_blob c.tree c.author c.message c.start_datetime with hb0
  by_cases hf : e.failAt st.objects.length = true
  · simp only [commit_blob, hf, if_true]
    intro j b hb
    simp at hb
  · rw [Bool.not_eq_true] at hf
    simp only [commit_blob, hf, Bool.false_eq_true, if_false]
    set st1 : RepoState := { st with objects := st.objects ++ [b0] } with hst1
    have hchain : chainInv st.objects.length (commitMain c e
        (c.end_hour - c.start_hour) (c.days_to_commit - 1).toNat
        c.start_datetime 1 (st.objects.length, b0) st1).2.objects := by
      apply commitMain_chain
      · simp [hst1]
      · simp [hst1]
      · intro j b hb
        simp only [hst1] at hb
        rw [List.drop_append_of_le_length (le_refl _)] at hb
        simp at hb
    rcases hm : commitMain c e (c.end_hour - c.start_hour)
        (c.days_to_commit - 1).toNat c.start_datetime 1
        (st.objects.length, b0) st1 with ⟨res, st2⟩
    rw [hm] at hchain
    cases res with
    | error er => exact hchain
    | ok acc =>
      have : chainInv st.objects.length (reset_head_to_hash st2 acc.1).2.objects := by
        rw [reset_head_objects]
        exact hchain
      exact this

/-! ### Claim theorems: chain, error handling, success shape -/

/-- C1: in every successful run of `commit_all` the created commits form
a single linear chain: the first created commit (at `start_datetime`) has
no parent, and the commit at creation index `j + 1` has as its only
parent reference exactly the object identifier `st.objects.length + j`
that `commit_blob` returned for the immediately preceding created commit
(a `Blob` holds at most one parent, so there is no branching and no
merging). -/
theorem commit_all_linear_chain (c : Committer) (e : Engine) (st : RepoState)
    (h : (commit_all c e st).1 = .ok ()) :
    ∃ created : List Blob,
      (commit_all c e st).2.objects = st.objects ++ created ∧
      created.head? = some (generate_initial_blob c.tree c.author c.message
        c.start_datetime) ∧
      (∀ b, created.head? = some b → b.parent = none) ∧
      (∀ j b, created.get? (j + 1) = some b →
        b.parent = some (st.objects.length + j)) := by
  obtain ⟨new, h1, _, hok, _⟩ := commit_all_structural c e st
  obtain ⟨hne, hhead, _⟩ := hok h
  refine ⟨new, h1, hhead, ?_, ?_⟩
  · intro b hb
    rw [hhead] at hb
    cases hb
    rfl
  · intro j b hb
    apply commit_all_chain c e st j b
    rw [h1, List.drop_left]
    exact hb

/-- Witness for C1 on a concrete successful two-day run. -/
theorem commit_all_linear_chain_witness :
    (commit_all cW eW stW).1 = .ok () ∧
    (∃ created : List Blob,
      (commit_all cW eW stW).2.objects = stW.objects ++ created ∧
      created.head? = some (generate_initial_blob cW.tree cW.author cW.message
        cW.start_datetime) ∧
      (∀ b, created.head? = some b → b.parent = none) ∧
      (∀ j b, created.get? (j + 1) = some b →
        b.parent = some (stW.objects.length + j))) :=
  ⟨rfl, commit_all_linear_chain cW eW stW rfl⟩

/-- C6: if an object write fails, `commit_all` aborts at once with
`CommitObjectError`, the branch head still holds its pre-run value (the
reset happens only after every commit is written), and everything
written before the failure is still in the object database. -/
theorem commit_all_failfast (c : Committer) (e : Engine) (st : RepoState)
    (er : Err) (h : (commit_all c e st).1 = .error er) :
    er = .CommitObjectError ∧
    (commit_all c e st).2.head = st.head ∧
    ∃ written : List Blob,
      (commit_all c e st).2.objects = st.objects ++ written := by
  obtain ⟨new, h1, herr, _, _⟩ := commit_all_structural c e st
  obtain ⟨hh, he⟩ := herr er h
  exact ⟨he, hh, new, h1⟩

/-- Witness for C6 on a concrete run whose second object write (day 1)
fails. -/
theorem commit_all_failfast_witness :
    (commit_all cW eF stW).1 = .error .CommitObjectError ∧
    (Err.CommitObjectError = .CommitObjectError ∧
      (commit_all cW eF stW).2.head = stW.head ∧
      ∃ written : List Blob,
        (commit_all cW eF stW).2.objects = stW.objects ++ written) :=
  ⟨rfl, commit_all_failfast cW eF stW .CommitObjectError rfl⟩

/-- C10: every successful run creates at least one commit — the initial
commit at `start_datetime` — and leaves the head reset to the object id
of the last created commit, also when `days_to_commit` is `0` or `1`
(zero iterations of the day loop). -/
theorem commit_all_success_shape (c : Committer) (e : Engine)
    (st : RepoState) (h : (commit_all c e st).1 = .ok ()) :
    ∃ created : List Blob,
      (commit_all c e st).2.objects = st.objects ++ created ∧
      created.length ≠ 0 ∧
      created.head? = some (generate_initial_blob c.tree c.author c.message
        c.start_datetime) ∧
      (commit_all c e st).2.head + 1 = (commit_all c e st).2.objects.length := by
  obtain ⟨new, h1, _, hok, _⟩ := commit_all_structural c e st
  obtain ⟨hne, hhead, hres⟩ := hok h
  exact ⟨new, h1, hne, hhead, hres⟩

/-- Witness for C10 on a concrete run with `days_to_commit = 0`: only the
initial commit is created and the head is reset to it. -/
theorem commit_all_success_shape_witness :
    (commit_all cW0 eW stW).1 = .ok () ∧
    (∃ created : List Blob,
      (commit_all cW0 eW stW).2.objects = stW.objects ++ created ∧
      created.length ≠ 0 ∧
      created.head? = some (generate_initial_blob cW0.tree cW0.author
        cW0.message cW0.start_datetime) ∧
      (commit_all cW0 eW stW).2.head + 1 =
        (commit_all cW0 eW stW).2.objects.length) :=
  ⟨rfl, commit_all_success_shape cW0 eW stW rfl⟩

/-! ### Skip behaviour of the intra-day loop -/

lemma dateOf_intraDayTime (start_time work : ℤ) (num i : ℕ)
    (hw : 0 ≤ work) (hlt : timeOfDay start_time + work < secondsPerDay)
    (hi : i ≤ num) :
    dateOf (intraDayTime start_time work num i) = dateOf start_time := by
  have h0 := commitOffset_nonneg work num i hw
  have h1 := commitOffset_le work num i hw hi
  unfold intraDayTime
  apply dateOf_add _ _ h0
  linarith

lemma commitLoop_skip_all (c : Committer) (e : Engine)
    (start_time work : ℤ) (num : ℕ) (is : List ℕ)
    (h : ∀ i ∈ is, e.skip (dateOf (intraDayTime start_time work num i)) = true) :
    ∀ (acc : ℕ × Blob) (st : RepoState),
    commitLoop c e start_time work num is acc st = (.ok acc, st) := by
  induction is with
  | nil =>
    intro acc st
    rfl
  | cons i is ih =>
    intro acc st
    rcases commitDayStep_cases c e start_time work num acc st i with
      ⟨hs, heq⟩ | ⟨hs, _, _⟩ | ⟨hs, _, _⟩
    · rw [commitLoop_cons_ok c e start_time work num i is acc acc st st heq]
      exact ih (fun j hj => h j (List.mem_cons_of_mem i hj)) acc st
    · rw [h i (List.mem_cons_self i is)] at hs
      cases hs
    · rw [h i (List.mem_cons_self i is)] at hs
      cases hs

lemma commitLoop_noskip_engine (c : Committer) (e : Engine)
    (start_time work : ℤ) (num : ℕ) (is : List ℕ)
    (h : ∀ i ∈ is, e.skip (dateOf (intraDayTime start_time work num i)) = false) :
    ∀ (acc : ℕ × Blob) (st : RepoState),
    commitLoop c e start_time work num is acc st =
      commitLoop c { e with skip := fun _ => false } start_time work num is acc st := by
  induction is with
  | nil =>
    intro acc st
    rfl
  | cons i is ih =>
    intro acc st
    have hs : e.skip (dateOf (intraDayTime start_time work num i)) = false :=
      h i (List.mem_cons_self i is)
    have hstep : commitDayStep c e start_time work num acc st i =
        commitDayStep c { e with skip := fun _ => false } start_time work num acc st i := by
      simp [commitDayStep, commit_blob, hs]
    simp only [commitLoop, hstep]
    rcases hd : commitDayStep c { e with skip := fun _ => false }
        start_time work num acc st i with ⟨res, st'⟩
    cases res with
    | error er => rfl
    | ok acc' => exact ih (fun j hj => h j (List.mem_cons_of_mem i hj)) acc' st'

/-- C9: on a day producing zero commits — the drawn commit count is zero
or the day's date is excluded — `commit_from_time` returns the parent
identifier and payload unchanged from its inputs, and leaves the
repository untouched, so the prior day's parent carries forward. -/
theorem commit_from_time_frame (c : Committer) (e : Engine) (parent : ℕ)
    (blob : Blob) (start_time work : ℤ) (num : ℕ) (st : RepoState)
    (h : num = 0 ∨ (0 ≤ work ∧ timeOfDay start_time + work < secondsPerDay ∧
      e.skip (dateOf start_time) = true)) :
    commit_from_time c e parent blob start_time work num st =
      (.ok (parent, blob), st) := by
  rcases h with h0 | ⟨hw, hlt, hskip⟩
  · subst h0
    rfl
  · apply commitLoop_skip_all
    intro i hi
    rw [dateOf_intraDayTime start_time work num i hw hlt
      (le_of_lt (List.mem_range.mp hi))]
    exact hskip

/-- Witness for C9: a day whose date is excluded, with a positive drawn
count, changes nothing. -/
theorem commit_from_time_frame_witness :
    ((2 : ℕ) = 0 ∨ ((0 : ℤ) ≤ 28800 ∧
      timeOfDay 118800 + 28800 < secondsPerDay ∧
      eS.skip (dateOf 118800) = true)) ∧
    commit_from_time cW eS 0 (generate_initial_blob "t" "a" "m" 32400)
      118800 28800 2 stW =
      (.ok (0, generate_initial_blob "t" "a" "m" 32400), stW) :=
  ⟨Or.inr (by refine ⟨by norm_num, by decide, rfl⟩),
    commit_from_time_frame cW eS 0 (generate_initial_blob "t" "a" "m" 32400)
      118800 28800 2 stW (Or.inr ⟨by norm_num, by decide, rfl⟩)⟩

/-- C7: checking the exclusion policy once per intra-day timestamp is
behaviourally identical to a single all-or-nothing per-day check,
because every intra-day timestamp of a valid day shares the day's
calendar date. -/
theorem commit_from_time_refines_daySkip (c : Committer) (e : Engine)
    (parent : ℕ) (blob : Blob) (start_time work : ℤ) (num : ℕ)
    (st : RepoState) (hw : 0 ≤ work)
    (hlt : timeOfDay start_time + work < secondsPerDay) :
    commit_from_time c e parent blob start_time work num st =
      commit_from_time_daySkip c e parent blob start_time work num st := by
  unfold commit_from_time_daySkip
  by_cases hs : e.skip (dateOf start_time) = true
  · rw [if_pos hs]
    apply commitLoop_skip_all
    intro i hi
    rw [dateOf_intraDayTime start_time work num i hw hlt
      (le_of_lt (List.mem_range.mp hi))]
    exact hs
  · rw [Bool.not_eq_true] at hs
    rw [if_neg (by simp [hs])]
    apply commitLoop_noskip_engine
    intro i hi
    rw [dateOf_intraDayTime start_time work num i hw hlt
      (le_of_lt (List.mem_range.mp hi))]
    exact hs

/-- Witness for C7 on a concrete valid day. -/
theorem commit_from_time_refines_daySkip_witness :
    ((0 : ℤ) ≤ 28800 ∧ timeOfDay 118800 + 28800 < secondsPerDay) ∧
    commit_from_time cW eW 0 (generate_initial_blob "t" "a" "m" 32400)
      118800 28800 2 stW =
      commit_from_time_daySkip cW eW 0 (generate_initial_blob "t" "a" "m" 32400)
        118800 28800 2 stW :=
  ⟨⟨by norm_num, by decide⟩,
    commit_from_time_refines_daySkip cW eW 0
      (generate_initial_blob "t" "a" "m" 32400) 118800 28800 2 stW
      (by norm_num) (by decide)⟩

/-! ### Skip dates, construction, and the count distribution -/

/-- C4 (amended): every commit created by the day loop — all created
commits except the initial one — falls on a date the exclusion policy
does not mark skip; the initial commit at `start_datetime`, however, is
written unconditionally, its date never being checked. -/
theorem commit_all_skip_dates (c : Committer) (e : Engine) (st : RepoState) :
    ∃ created : List Blob,
      (commit_all c e st).2.objects = st.objects ++ created ∧
      ∀ b ∈ created.drop 1, e.skip (dateOf b.time) = false := by
  obtain ⟨new, h1, _, _, h4⟩ := commit_all_structural c e st
  exact ⟨new, h1, h4⟩

/-- Counterexample to C4 as stated: with every date marked skip, a
successful run still creates the initial commit, whose timestamp
`start_datetime` lies on a skipped date. -/
theorem commit_all_skip_dates_counterexample :
    (commit_all cW0 eS stW).1 = .ok () ∧
    eS.skip (dateOf cW0.start_datetime) = true ∧
    (commit_all cW0 eS stW).2.objects.head? =
      some (generate_initial_blob cW0.tree cW0.author cW0.message
        cW0.start_datetime) :=
  ⟨rfl, rfl, rfl⟩

/-- C5: for positive `years_ago`, the scheduler built by `Committer::new`
has `days_to_commit = round(365 * years_ago)`, a non-negative integer. -/
theorem Committer_new_days (tree author message : String) (yrs_ago : ℚ)
    (start end_hour now : ℤ) (hy : 0 < yrs_ago) :
    (Committer.new tree author message yrs_ago start end_hour now).days_to_commit =
      round (365 * yrs_ago) ∧
    0 ≤ (Committer.new tree author message yrs_ago start end_hour now).days_to_commit := by
  constructor
  · rfl
  · show 0 ≤ daysToCommit yrs_ago
    unfold daysToCommit
    rw [round_eq]
    apply Int.le_floor.mpr
    push_cast
    linarith

/-- Witness for C5 at `years_ago = 1/10`: `days_to_commit = 37`. -/
theorem Committer_new_days_witness :
    (0 : ℚ) < 1 / 10 ∧
    ((Committer.new "t" "a" "m" (1 / 10) 32400 61200 100000).days_to_commit =
        round (365 * (1 / 10 : ℚ)) ∧
      0 ≤ (Committer.new "t" "a" "m" (1 / 10) 32400 61200 100000).days_to_commit) :=
  ⟨by norm_num, Committer_new_days "t" "a" "m" (1 / 10) 32400 61200 100000 (by norm_num)⟩

/-- C8: `gen_rand_num_commits` always yields an integer in `[0, 13]`,
and over one uniform period of the underlying draw the value
`choices[k]` is produced exactly `weights[k]` times — i.e. the result is
distributed with weights `[3,4,2,2,2,1,1,1,1,2,2,2,4,3]` over `0..13`. -/
theorem gen_rand_num_commits_spec :
    (∀ r : ℕ, 0 ≤ gen_rand_num_commits r ∧ gen_rand_num_commits r ≤ 13) ∧
    (∀ k : Fin 14,
      ((List.range 30).filter
        (fun r => gen_rand_num_commits r == choices.getD k.val 0)).length =
      weights.getD k.val 0) := by
  have hsum : weights.sum = 30 := by decide
  have hmod : ∀ r : ℕ, gen_rand_num_commits r =
      gen_rand_num_commits (r % 30) := by
    intro r
    unfold gen_rand_num_commits
    rw [hsum, Nat.mod_mod_of_dvd _ dvd_rfl]
  constructor
  · intro r
    rw [hmod r]
    have hlt : r % 30 < 30 := Nat.mod_lt _ (by norm_num)
    have key : ∀ m : Fin 30,
        0 ≤ gen_rand_num_commits m.val ∧ gen_rand_num_commits m.val ≤ 13 := by
      decide
    exact key ⟨r % 30, hlt⟩
  · decide

/-! ### The intra-day schedule -/

lemma timeOfDay_intraDayTime (D s e_ : ℤ) (num i : ℕ)
    (hs : 0 ≤ s) (hse : s ≤ e_) (he : e_ < secondsPerDay) (hi : i ≤ num) :
    timeOfDay (intraDayTime (D * secondsPerDay + s) (e_ - s) num i) =
      s + commitOffset (e_ - s) num i := by
  have h0 := commitOffset_nonneg (e_ - s) num i (by linarith)
  have h1 := commitOffset_le (e_ - s) num i (by linarith) hi
  unfold intraDayTime
  rw [add_assoc]
  exact timeOfDay_closed D _ (by linarith) (by linarith)

/-- C3: for a day with drawn count `num > 0`, the i-th intra-day
timestamp is exactly day-start plus `(work_seconds / num) * i` seconds —
the first commit of the day landing exactly at window start — and for a
valid window `start < end` the time of day of every such timestamp lies
in `[start, end]`. -/
theorem intra_day_schedule (D s e_ : ℤ) (num i : ℕ)
    (hs : 0 ≤ s) (hse : s < e_) (he : e_ < secondsPerDay)
    (hnum : 0 < num) (hi : i < num) :
    intraDayTime (D * secondsPerDay + s) (e_ - s) num i =
      (D * secondsPerDay + s) + commitOffset (e_ - s) num i ∧
    intraDayTime (D * secondsPerDay + s) (e_ - s) num 0 =
      D * secondsPerDay + s ∧
    s ≤ timeOfDay (intraDayTime (D * secondsPerDay + s) (e_ - s) num i) ∧
    timeOfDay (intraDayTime (D * secondsPerDay + s) (e_ - s) num i) ≤ e_ := by
  have h0 := commitOffset_nonneg (e_ - s) num i (by linarith)
  have h1 := commitOffset_le (e_ - s) num i (by linarith) (le_of_lt hi)
  have htod := timeOfDay_intraDayTime D s e_ num i hs (le_of_lt hse) he
    (le_of_lt hi)
  refine ⟨rfl, ?_, ?_, ?_⟩
  · unfold intraDayTime
    rw [commitOffset_zero, add_zero]
  · rw [htod]
    linarith
  · rw [htod]
    linarith

/-- Witness for C3: day 1, window 09:00-17:00, two commits, second
timestamp at 13:00. -/
theorem intra_day_schedule_witness :
    ((0 : ℤ) ≤ 32400 ∧ (32400 : ℤ) < 61200 ∧ (61200 : ℤ) < secondsPerDay ∧
      (0 : ℕ) < 2 ∧ (1 : ℕ) < 2) ∧
    (intraDayTime (1 * secondsPerDay + 32400) (61200 - 32400) 2 1 =
        (1 * secondsPerDay + 32400) + commitOffset (61200 - 32400) 2 1 ∧
      intraDayTime (1 * secondsPerDay + 32400) (61200 - 32400) 2 0 =
        1 * secondsPerDay + 32400 ∧
      32400 ≤ timeOfDay (intraDayTime (1 * secondsPerDay + 32400)
        (61200 - 32400) 2 1) ∧
      timeOfDay (intraDayTime (1 * secondsPerDay + 32400)
        (61200 - 32400) 2 1) ≤ 61200) :=
  ⟨⟨by norm_num, by norm_num, by norm_num [secondsPerDay], by norm_num, by norm_num⟩,
    intra_day_schedule 1 32400 61200 2 1 (by norm_num) (by norm_num)
      (by norm_num [secondsPerDay]) (by norm_num) (by norm_num)⟩

/-! ### Ordered timestamps -/

lemma commitLoop_times (c : Committer) (e : Engine) (start_time work : ℤ)
    (num : ℕ) (hw : 0 ≤ work) (is : List ℕ) :
    ∀ (acc : ℕ × Blob) (st : RepoState),
    List.Pairwise (· ≤ ·) is →
    ∃ new : List Blob,
      (commitLoop c e start_time work num is acc st).2.objects =
        st.objects ++ new ∧
      (∀ b ∈ new, ∃ i ∈ is, b.time = intraDayTime start_time work num i) ∧
      List.Pairwise (· ≤ ·) (new.map Blob.time) := by
  induction is with
  | nil =>
    intro acc st _
    exact ⟨[], by simp [commitLoop], by simp, by simp⟩
  | cons i is ih =>
    intro acc st hp
    have hp' : List.Pairwise (· ≤ ·) is := (List.pairwise_cons.mp hp).2
    have hle : ∀ j ∈ is, i ≤ j := (List.pairwise_cons.mp hp).1
    rcases commitDayStep_cases c e start_time work num acc st i with
      ⟨hsk, heq⟩ | ⟨hsk, hf, heq⟩ | ⟨hsk, hf, heq⟩
    · rw [commitLoop_cons_ok c e start_time work num i is acc acc st st heq]
      obtain ⟨new, k1, k2, k3⟩ := ih acc st hp'
      refine ⟨new, k1, ?_, k3⟩
      intro b hb
      obtain ⟨j, hj, ht⟩ := k2 b hb
      exact ⟨j, List.mem_cons_of_mem i hj, ht⟩
    · rw [commitLoop_cons_error c e start_time work num i is acc st st
        .CommitObjectError heq]
      exact ⟨[], by simp, by simp, by simp⟩
    · set b := generate_non_initial_blob c.tree acc.1 c.author c.message
        (intraDayTime start_time work num i) with hb
      set st' : RepoState := { st with objects := st.objects ++ [b] } with hst'
      rw [commitLoop_cons_ok c e start_time work num i is acc
        (st.objects.length, b) st st' heq]
      obtain ⟨new, k1, k2, k3⟩ := ih (st.objects.length, b) st' hp'
      refine ⟨b :: new, ?_, ?_, ?_⟩
      · rw [k1, hst']
        simp
      · intro x hx
        rcases List.mem_cons.mp hx with hx | hx
        · subst hx
          exact ⟨i, List.mem_cons_self i is, by rw [hb]; rfl⟩
        · obtain ⟨j, hj, ht⟩ := k2 x hx
          exact ⟨j, List.mem_cons_of_mem i hj, ht⟩
      · rw [List.map_cons]
        refine List.pairwise_cons.mpr ⟨?_, k3⟩
        intro y hy
        obtain ⟨b', hb', hyt⟩ := List.mem_map.mp hy
        obtain ⟨j, hj, ht⟩ := k2 b' hb'
        rw [← hyt, ht]
        have hbt : b.time = intraDayTime start_time work num i := by
          rw [hb]
          rfl
        rw [hbt]
        unfold intraDayTime
        have := commitOffset_mono work num i j hw (hle j hj)
        linarith


lemma commitMain_times (c : Committer) (e : Engine) (work : ℤ)
    (hw : 0 ≤ work) (hwd : work ≤ secondsPerDay) (n : ℕ) :
    ∀ (t0 : ℤ) (day : ℕ) (acc : ℕ × Blob) (st : RepoState),
    ∃ new : List Blob,
      (commitMain c e work n t0 day acc st).2.objects = st.objects ++ new ∧
      (∀ b ∈ new, t0 + secondsPerDay ≤ b.time ∧
        b.time ≤ t0 + n * secondsPerDay + work) ∧
      (∀ b ∈ new, ∃ k i : ℕ, k < n ∧ i < e.numCommits (day + k) ∧
        b.time = intraDayTime (t0 + ((k : ℤ) + 1) * secondsPerDay) work
          (e.numCommits (day + k)) i) ∧
      List.Pairwise (· ≤ ·) (new.map Blob.time) := by
  induction n with
  | zero =>
    intro t0 day acc st
    exact ⟨[], by simp [commitMain], by simp, by simp, by simp⟩
  | succ n ih =>
    intro t0 day acc st
    obtain ⟨new1, l1, l2, l3⟩ := commitLoop_times c e (t0 + secondsPerDay)
      work (e.numCommits day) hw (List.range (e.numCommits day))
      (acc.1, acc.2) st (List.pairwise_le_range _)
    have hnew1 : ∀ b ∈ new1, t0 + secondsPerDay ≤ b.time ∧
        b.time ≤ t0 + secondsPerDay + work := by
      intro b hb
      obtain ⟨i, hi, ht⟩ := l2 b hb
      have hi' : i < e.numCommits day := List.mem_range.mp hi
      rw [ht]
      unfold intraDayTime
      constructor
      · linarith [commitOffset_nonneg work (e.numCommits day) i hw]
      · linarith [commitOffset_le work (e.numCommits day) i hw (le_of_lt hi')]
    have hshape1 : ∀ b ∈ new1, ∃ k i : ℕ, k < n + 1 ∧
        i < e.numCommits (day + k) ∧
        b.time = intraDayTime (t0 + ((k : ℤ) + 1) * secondsPerDay) work
          (e.numCommits (day + k)) i := by
      intro b hb
      obtain ⟨i, hi, ht⟩ := l2 b hb
      refine ⟨0, i, by omega, by simpa using List.mem_range.mp hi, ?_⟩
      rw [ht]
      norm_num
    rcases hr : commit_from_time c e acc.1 acc.2 (t0 + secondsPerDay) work
      (e.numCommits day) st with ⟨res, st'⟩
    have hr' : commitLoop c e (t0 + secondsPerDay) work (e.numCommits day)
        (List.range (e.numCommits day)) (acc.1, acc.2) st = (res, st') := hr
    rw [hr'] at l1
    cases res with
    | error er =>
      rw [commitMain_succ_error c e work n t0 day acc st st' er hr]
      refine ⟨new1, l1, ?_, hshape1, l3⟩
      intro b hb
      obtain ⟨hlo, hhi⟩ := hnew1 b hb
      constructor
      · exact hlo
      · have : (0 : ℤ) ≤ (n : ℤ) * secondsPerDay :=
          mul_nonneg (by positivity) (le_of_lt secondsPerDay_pos)
        push_cast
        linarith
    | ok acc' =>
      rw [commitMain_succ_ok c e work n t0 day acc acc' st st' hr]
      obtain ⟨new2, m1, m2, m3, m4⟩ := ih (t0 + secondsPerDay) (day + 1) acc' st'
      have hst' : st'.objects = st.objects ++ new1 := l1
      refine ⟨new1 ++ new2, ?_, ?_, ?_, ?_⟩
      · rw [m1, hst', List.append_assoc]
      · intro b hb
        rcases List.mem_append.mp hb with hb | hb
        · obtain ⟨hlo, hhi⟩ := hnew1 b hb
          refine ⟨hlo, ?_⟩
          have : (0 : ℤ) ≤ (n : ℤ) * secondsPerDay :=
          mul_nonneg (by positivity) (le_of_lt secondsPerDay_pos)
          push_cast
          linarith
        · obtain ⟨hlo, hhi⟩ := m2 b hb
          constructor
          · have h86 : (0 : ℤ) < secondsPerDay := secondsPerDay_pos
            linarith
          · push_cast
            linarith
      · intro b hb
        rcases List.mem_append.mp hb with hb | hb
        · exact hshape1 b hb
        · obtain ⟨k', i, hk', hi, ht⟩ := m3 b hb
          refine ⟨k' + 1, i, by omega, ?_, ?_⟩
          · have : day + 1 + k' = day + (k' + 1) := by omega
            rw [← this]
            exact hi
          · rw [ht]
            have : day + 1 + k' = day + (k' + 1) := by omega
            rw [this]
            congr 1
            push_cast
            ring
      · rw [List.map_append]
        refine List.pairwise_append.mpr ⟨l3, m4, ?_⟩
        intro x hx y hy
        obtain ⟨bx, hbx, hxt⟩ := List.mem_map.mp hx
        obtain ⟨by_, hby, hyt⟩ := List.mem_map.mp hy
        obtain ⟨_, hx2⟩ := hnew1 bx hbx
        obtain ⟨hy1, _⟩ := m2 by_ hby
        rw [← hxt, ← hyt]
        have h86 : (0 : ℤ) < secondsPerDay := secondsPerDay_pos
        linarith


/-- C2: in every run anchored at the window start (`start_datetime` has
time of day `start_hour`) with a valid window, the created commits, in
creation order, carry non-decreasing timestamps; every one of them has a
time of day inside `[start_hour, end_hour]`; and each is either the
initial commit at `start_datetime` or lands on the evenly-spaced
intra-day schedule of its day `d`. -/
theorem commit_all_timestamps (c : Committer) (e : Engine) (st : RepoState)
    (D : ℤ) (hanchor : c.start_datetime = D * secondsPerDay + c.start_hour)
    (hs : 0 ≤ c.start_hour) (hse : c.start_hour ≤ c.end_hour)
    (he : c.end_hour < secondsPerDay) :
    ∃ created : List Blob,
      (commit_all c e st).2.objects = st.objects ++ created ∧
      List.Pairwise (· ≤ ·) (created.map Blob.time) ∧
      (∀ b ∈ created, c.start_hour ≤ timeOfDay b.time ∧
        timeOfDay b.time ≤ c.end_hour) ∧
      (∀ b ∈ created, b.time = c.start_datetime ∨
        ∃ d i : ℕ, 1 ≤ d ∧ i < e.numCommits d ∧
          b.time = intraDayTime (c.start_datetime + (d : ℤ) * secondsPerDay)
            (c.end_hour - c.start_hour) (e.numCommits d) i) := by
  have hw : (0 : ℤ) ≤ c.end_hour - c.start_hour := by linarith
  have hwd : c.end_hour - c.start_hour ≤ secondsPerDay := by linarith
  unfold commit_all
  set b0 := generate_initial_blob c.tree c.author c.message c.start_datetime with hb0
  by_cases hf : e.failAt st.objects.length = true
  · refine ⟨[], ?_, ?_, ?_, ?_⟩ <;> simp [commit_blob, hf]
  · rw [Bool.not_eq_true] at hf
    simp only [commit_blob, hf, Bool.false_eq_true, if_false]
    set st1 : RepoState := { st with objects := st.objects ++ [b0] } with hst1
    obtain ⟨new, m1, m2, m3, m4⟩ := commitMain_times c e
      (c.end_hour - c.start_hour) hw hwd (c.days_to_commit - 1).toNat
      c.start_datetime 1 (st.objects.length, b0) st1
    rcases hm : commitMain c e (c.end_hour - c.start_hour)
        (c.days_to_commit - 1).toNat c.start_datetime 1
        (st.objects.length, b0) st1 with ⟨res, st2⟩
    rw [hm] at m1
    have hb0t : b0.time = c.start_datetime := rfl
    have hwin : ∀ b ∈ new, c.start_hour ≤ timeOfDay b.time ∧
        timeOfDay b.time ≤ c.end_hour := by
      intro b hb
      obtain ⟨k, i, hk, hi, ht⟩ := m3 b hb
      have hcur : c.start_datetime + ((k : ℤ) + 1) * secondsPerDay =
          (D + (k : ℤ) + 1) * secondsPerDay + c.start_hour := by
        rw [hanchor]
        ring
      rw [ht, hcur, timeOfDay_intraDayTime (D + (k : ℤ) + 1) c.start_hour
        c.end_hour (e.numCommits (1 + k)) i hs hse he (le_of_lt hi)]
      constructor
      · linarith [commitOffset_nonneg (c.end_hour - c.start_hour)
          (e.numCommits (1 + k)) i hw]
      · linarith [commitOffset_le (c.end_hour - c.start_hour)
          (e.numCommits (1 + k)) i hw (le_of_lt hi)]
    have hb0w : c.start_hour ≤ timeOfDay b0.time ∧
        timeOfDay b0.time ≤ c.end_hour := by
      rw [hb0t, hanchor, timeOfDay_closed D _ hs (lt_of_le_of_lt hse he)]
      exact ⟨le_refl _, hse⟩
    have hwinall : ∀ b ∈ b0 :: new, c.start_hour ≤ timeOfDay b.time ∧
        timeOfDay b.time ≤ c.end_hour := by
      intro b hb
      rcases List.mem_cons.mp hb with hb | hb
      · subst hb
        exact hb0w
      · exact hwin b hb
    have hpw : List.Pairwise (· ≤ ·) ((b0 :: new).map Blob.time) := by
      rw [List.map_cons]
      refine List.pairwise_cons.mpr ⟨?_, m4⟩
      intro y hy
      obtain ⟨b', hb', hyt⟩ := List.mem_map.mp hy
      obtain ⟨hlo, _⟩ := m2 b' hb'
      rw [← hyt, hb0t]
      have := secondsPerDay_pos
      linarith
    have hshape : ∀ b ∈ b0 :: new, b.time = c.start_datetime ∨
        ∃ d i : ℕ, 1 ≤ d ∧ i < e.numCommits d ∧
          b.time = intraDayTime (c.start_datetime + (d : ℤ) * secondsPerDay)
            (c.end_hour - c.start_hour) (e.numCommits d) i := by
      intro b hb
      rcases List.mem_cons.mp hb with hb | hb
      · left
        rw [hb]
        exact hb0t
      · right
        obtain ⟨k, i, hk, hi, ht⟩ := m3 b hb
        refine ⟨1 + k, i, by omega, hi, ?_⟩
        rw [ht]
        have hc : ((k : ℤ) + 1) = ((1 + k : ℕ) : ℤ) := by
          push_cast
          ring
        rw [hc]
    have hobj : st2.objects = st.objects ++ (b0 :: new) := by
      rw [m1, hst1]
      simp
    cases res with
    | error er =>
      exact ⟨b0 :: new, hobj, hpw, hwinall, hshape⟩
    | ok acc =>
      refine ⟨b0 :: new, ?_, hpw, hwinall, hshape⟩
      rw [reset_head_objects st2 acc.1]
      exact hobj

/-- Witness for C2 on a concrete two-day run anchored at 09:00 of day 0. -/
theorem commit_all_timestamps_witness :
    (cW.start_datetime = 0 * secondsPerDay + cW.start_hour ∧
      (0 : ℤ) ≤ cW.start_hour ∧ cW.start_hour ≤ cW.end_hour ∧
      cW.end_hour < secondsPerDay) ∧
    (∃ created : List Blob,
      (commit_all cW eW stW).2.objects = stW.objects ++ created ∧
      List.Pairwise (· ≤ ·) (created.map Blob.time) ∧
      (∀ b ∈ created, cW.start_hour ≤ timeOfDay b.time ∧
        timeOfDay b.time ≤ cW.end_hour) ∧
      (∀ b ∈ created, b.time = cW.start_datetime ∨
        ∃ d i : ℕ, 1 ≤ d ∧ i < eW.numCommits d ∧
          b.time = intraDayTime (cW.start_datetime + (d : ℤ) * secondsPerDay)
            (cW.end_hour - cW.start_hour) (eW.numCommits d) i)) :=
  ⟨⟨by decide, by decide, by decide, by decide⟩,
    commit_all_timestamps cW eW stW 0 (by decide) (by decide) (by decide)
      (by decide)⟩

end GreenBois
